import Mathlib

/-!
Verification of the `nlup` confusion-matrix accumulators (`nlup/confusion.py`).

The Python module is shallowly embedded:
* Python `int` counts become `ℤ` (the constructors accept arbitrary integers);
* Python `float` results become `PFloat`, an idealized float carrying an exact
  rational in place of an IEEE double, plus `inf`, `ninf` and `nan`
  (the module's `INF`/`NAN` constants and the values float arithmetic can
  produce here); Python's `/` on numbers raises `ZeroDivisionError` for a zero
  denominator even for floats, which `pfdiv`/`qdiv` model by returning
  `Except.error Err.zeroDivision`;
* Python `dict` (insertion-ordered, no duplicate keys) becomes an association
  list `List (key × value)`; `alFind` is key lookup and `alSet` replaces the
  first occurrence of a key or appends a fresh key at the end, exactly the
  value-level effect of `d[k] = v`;
* methods that can raise return `Except Err _`.
-/

namespace Nlup

/-- Python exception conditions that the embedded code can raise. -/
inductive Err
  | zeroDivision
  | nameError
  | assertionError
  deriving DecidableEq

/-- Idealized Python float: an exact rational, `float("inf")`, `-float("inf")`
or `float("nan")`. -/
inductive PFloat
  | fin (q : ℚ)
  | inf
  | ninf
  | nan
  deriving DecidableEq

/-- Negation of an idealized Python float. -/
def PFloat.neg : PFloat → PFloat
  | .fin q => .fin (-q)
  | .inf => .ninf
  | .ninf => .inf
  | .nan => .nan

/-- Python float addition on `PFloat`. -/
def pfadd : PFloat → PFloat → PFloat
  | .nan, _ => .nan
  | .fin _, .nan => .nan
  | .inf, .nan => .nan
  | .ninf, .nan => .nan
  | .fin a, .fin b => .fin (a + b)
  | .fin _, .inf => .inf
  | .fin _, .ninf => .ninf
  | .inf, .fin _ => .inf
  | .ninf, .fin _ => .ninf
  | .inf, .inf => .inf
  | .ninf, .ninf => .ninf
  | .inf, .ninf => .nan
  | .ninf, .inf => .nan

/-- Python float subtraction on `PFloat`. -/
def pfsub (x y : PFloat) : PFloat := pfadd x y.neg

/-- Python float multiplication on `PFloat`. -/
def pfmul : PFloat → PFloat → PFloat
  | .nan, _ => .nan
  | .fin _, .nan => .nan
  | .inf, .nan => .nan
  | .ninf, .nan => .nan
  | .fin a, .fin b => .fin (a * b)
  | .fin a, .inf => if a = 0 then .nan else if 0 < a then .inf else .ninf
  | .fin a, .ninf => if a = 0 then .nan else if 0 < a then .ninf else .inf
  | .inf, .fin b => if b = 0 then .nan else if 0 < b then .inf else .ninf
  | .ninf, .fin b => if b = 0 then .nan else if 0 < b then .ninf else .inf
  | .inf, .inf => .inf
  | .inf, .ninf => .ninf
  | .ninf, .inf => .ninf
  | .ninf, .ninf => .inf

/-- Python float division on `PFloat`: a zero denominator raises
`ZeroDivisionError` (Python raises even for `inf/0.0` and `nan/0.0`). -/
def pfdiv (x y : PFloat) : Except Err PFloat :=
  match x, y with
  | x, .fin b =>
    if b = 0 then .error .zeroDivision
    else
      match x with
      | .fin a => .ok (.fin (a / b))
      | .inf => .ok (if 0 < b then .inf else .ninf)
      | .ninf => .ok (if 0 < b then .ninf else .inf)
      | .nan => .ok .nan
  | .nan, _ => .ok .nan
  | .fin _, .nan => .ok .nan
  | .inf, .nan => .ok .nan
  | .ninf, .nan => .ok .nan
  | .fin _, .inf => .ok (.fin 0)
  | .fin _, .ninf => .ok (.fin 0)
  | .inf, .inf => .ok .nan
  | .inf, .ninf => .ok .nan
  | .ninf, .inf => .ok .nan
  | .ninf, .ninf => .ok .nan

instance exceptDecEq {ε α : Type} [DecidableEq ε] [DecidableEq α] :
    DecidableEq (Except ε α)
  | .ok a, .ok b =>
    if h : a = b then .isTrue (by rw [h])
    else .isFalse (fun hh => h (by injection hh))
  | .error e, .error f =>
    if h : e = f then .isTrue (by rw [h])
    else .isFalse (fun hh => h (by injection hh))
  | .ok _, .error _ => .isFalse (fun hh => Except.noConfusion hh)
  | .error _, .ok _ => .isFalse (fun hh => Except.noConfusion hh)

def qdiv (n d : ℤ) : Except Err ℚ :=
  if d = 0 then .error .zeroDivision else .ok ((n : ℚ) / (d : ℚ))

/-! ### Association lists: the value-level model of Python `dict` -/

/-- Key lookup in an insertion-ordered association list (`d[k]`/`k in d`). -/
def alFind {α β : Type} [DecidableEq α] : List (α × β) → α → Option β
  | [], _ => none
  | (k', v') :: rest, k => if k' = k then some v' else alFind rest k

/-- `d[k] = v`: replace the value at the first occurrence of `k`, or append
`(k, v)` when `k` is absent (Python dicts append new keys at the end). -/
def alSet {α β : Type} [DecidableEq α] : List (α × β) → α → β → List (α × β)
  | [], k, v => [(k, v)]
  | (k', v') :: rest, k, v =>
    if k' = k then (k, v) :: rest else (k', v') :: alSet rest k v

/-- Sum of `f` over the values of an association list. -/
def alSumBy {α β : Type} (f : β → ℤ) (l : List (α × β)) : ℤ :=
  (l.map (fun p => f p.2)).sum

/-- Keys of an association list, in order. -/
def alKeys {α β : Type} (l : List (α × β)) : List α := l.map (fun p => p.1)

/-! ### `Accuracy` (the spec's ScalarAccuracyCounter) -/

/-- `Accuracy.__init__(self, correct=0, incorrect=0)`. -/
structure Accuracy where
  correct : ℤ
  incorrect : ℤ
  deriving DecidableEq

/-- `Accuracy.__len__`: `self.correct + self.incorrect`. -/
def Accuracy.len (a : Accuracy) : ℤ := a.correct + a.incorrect

/-- `Accuracy.update(self, truth, guess)`. -/
def Accuracy.update (a : Accuracy) (truth guess : String) : Accuracy :=
  if truth = guess then { a with correct := a.correct + 1 }
  else { a with incorrect := a.incorrect + 1 }

/-- The element-wise sum built by `Accuracy.__add__` once the operand type
check has passed (the check itself lives in `Accum.merge`). -/
def Accuracy.add (x y : Accuracy) : Accuracy :=
  ⟨x.correct + y.correct, x.incorrect + y.incorrect⟩

/-- `Accuracy.accuracy`: `self.correct / len(self)` with no exception handler,
so an empty counter raises `ZeroDivisionError`. -/
def Accuracy.accuracy (a : Accuracy) : Except Err PFloat :=
  if a.len = 0 then .error .zeroDivision
  else .ok (.fin ((a.correct : ℚ) / (a.len : ℚ)))

/-! ### `BinaryConfusion` -/

/-- A Python value fed to `BinaryConfusion.update`, with its truthiness. -/
inductive PyVal
  | bool (b : Bool)
  | int (n : ℤ)
  | str (s : String)
  deriving DecidableEq

/-- Python `bool(...)` coercion on `PyVal`. -/
def PyVal.toBool : PyVal → Bool
  | .bool b => b
  | .int n => decide (n ≠ 0)
  | .str s => decide (s ≠ "")

/-- `BinaryConfusion.__init__(self, hit=True, tp=0, fp=0, fn=0, tn=0)`. -/
structure BinaryConfusion where
  hit : Bool
  tp : ℤ
  fp : ℤ
  fn : ℤ
  tn : ℤ
  deriving DecidableEq

/-- `BinaryConfusion.__len__`: `self.tp + self.fp + self.fn + self.tn`. -/
def BinaryConfusion.len (m : BinaryConfusion) : ℤ := m.tp + m.fp + m.fn + m.tn

/-- `BinaryConfusion.update(self, truth, guess)`: coerce both arguments with
`bool(...)`, then bump exactly one of the four cells. -/
def BinaryConfusion.update (m : BinaryConfusion) (truth guess : PyVal) :
    BinaryConfusion :=
  let t := truth.toBool
  let g := guess.toBool
  if t then
    if g then { m with tp := m.tp + 1 } else { m with fn := m.fn + 1 }
  else if g then { m with fp := m.fp + 1 }
  else { m with tn := m.tn + 1 }

/-- The element-wise sum built by `BinaryConfusion.__add__` once its type and
hit-label checks have passed (the checks live in `Accum.merge`); the result
keeps the left operand's hit label. -/
def BinaryConfusion.add (x y : BinaryConfusion) : BinaryConfusion :=
  ⟨x.hit, x.tp + y.tp, x.fp + y.fp, x.fn + y.fn, x.tn + y.tn⟩

/-- `BinaryConfusion.accuracy`: `(tp + tn) / len(self)`, with
`ZeroDivisionError` caught and mapped to `NAN`; it never raises, hence the
plain `PFloat` return type. -/
def BinaryConfusion.accuracy (m : BinaryConfusion) : PFloat :=
  if m.len = 0 then .nan
  else .fin (((m.tp : ℚ) + (m.tn : ℚ)) / (m.len : ℚ))

/-- `BinaryConfusion.precision`: `tp / (tp + fp)`, `ZeroDivisionError` caught
and mapped to `INF`. -/
def BinaryConfusion.precision (m : BinaryConfusion) : PFloat :=
  if m.tp + m.fp = 0 then .inf
  else .fin ((m.tp : ℚ) / ((m.tp : ℚ) + (m.fp : ℚ)))

/-- `BinaryConfusion.recall`: `tp / (tp + fn)`, `ZeroDivisionError` caught and
mapped to `INF`. -/
def BinaryConfusion.recall (m : BinaryConfusion) : PFloat :=
  if m.tp + m.fn = 0 then .inf
  else .fin ((m.tp : ℚ) / ((m.tp : ℚ) + (m.fn : ℚ)))

/-- `BinaryConfusion.Kappa`: returns `NAN` when `len(self) == 0`, otherwise
`(accuracy - Pe) / (1 - Pe)` with `Pe = Px*Py + (1-Px)*(1-Py)`; the final
division raises `ZeroDivisionError` when `1 - Pe == 0`. -/
def BinaryConfusion.Kappa (m : BinaryConfusion) : Except Err PFloat :=
  if m.len = 0 then .ok .nan
  else
    let Px : ℚ := ((m.tp : ℚ) + (m.fp : ℚ)) / (m.len : ℚ)
    let Py : ℚ := ((m.tp : ℚ) + (m.fn : ℚ)) / (m.len : ℚ)
    let Pe : ℚ := Px * Py + (1 - Px) * (1 - Py)
    pfdiv (pfsub m.accuracy (.fin Pe)) (.fin (1 - Pe))

/-- `BinaryConfusion.Fscore(self, ratio=1.)`: `assert ratio > 0.` (an
`AssertionError` when the ratio is not positive), then
`((1 + ratio²) * P * R) / (ratio² * P + R)` in Python float arithmetic;
the division raises `ZeroDivisionError` when the denominator is `0.0`. -/
def BinaryConfusion.Fscore (m : BinaryConfusion) (ratio : ℚ) :
    Except Err PFloat :=
  if ¬ 0 < ratio then .error .assertionError
  else
    let rsq : ℚ := ratio * ratio
    let P := m.precision
    let R := m.recall
    pfdiv (pfmul (pfmul (.fin (1 + rsq)) P) R) (pfadd (pfmul (.fin rsq) P) R)

/-- `BinaryConfusion.Sscore(self, ns_ratio=1.)`: its first statement is
`assert ratio > 0.`, but no variable named `ratio` is in scope (the parameter
is `ns_ratio` and the module defines no global `ratio`), so every call raises
`NameError` before anything else runs. -/
def BinaryConfusion.Sscore (m : BinaryConfusion) (ns_ratio : ℚ) :
    Except Err PFloat :=
  .error .nameError

/-! ### `Confusion` (multi-class), value-level model

`self.matrix` is a `defaultdict(partial(defaultdict, int))`; its value at any
point is an insertion-ordered mapping from truth label to an inner mapping
from guess label to count, embedded as nested association lists. -/

/-- One inner row of the matrix: guess label to count. -/
abbrev CRow := List (String × ℤ)

/-- `row[guess] += k` on a `defaultdict(int)` row. -/
def rowBump (r : CRow) (g : String) (k : ℤ) : CRow :=
  alSet r g (((alFind r g).getD 0) + k)

/-- Sum of a row's counts (`sum(guess_count.values())`). -/
def rowSum (r : CRow) : ℤ := (r.map (fun p => p.2)).sum

structure Confusion where
  matrix : List (String × CRow)
  correct : ℤ
  incorrect : ℤ
  deriving DecidableEq

/-- `Confusion.__init__`. -/
def Confusion.empty : Confusion := ⟨[], 0, 0⟩

/-- `Confusion.__len__`: `self.correct + self.incorrect`. -/
def Confusion.len (m : Confusion) : ℤ := m.correct + m.incorrect

/-- `Confusion.update(self, truth, guess, k=1)`:
`self.matrix[truth][guess] += k` (lazily creating the row), then bump
`correct` or `incorrect` by 1 regardless of `k`. -/
def Confusion.update (m : Confusion) (truth guess : String) (k : ℤ) :
    Confusion :=
  let row := (alFind m.matrix truth).getD []
  let matrix := alSet m.matrix truth (rowBump row guess k)
  if truth = guess then
    { m with matrix := matrix, correct := m.correct + 1 }
  else
    { m with matrix := matrix, incorrect := m.incorrect + 1 }

/-- One iteration of the merge loop in `Confusion.__add__`: fetch or create
the target row for the right operand's truth label `p.1`, then add the right
row `p.2`'s counts into it cell by cell. -/
def addRowInto (acc : List (String × CRow)) (p : String × CRow) :
    List (String × CRow) :=
  let cur := (alFind acc p.1).getD []
  alSet acc p.1 (p.2.foldl (fun r q => rowBump r q.1 q.2) cur)

/-- The value of the `Confusion` instance returned by `Confusion.__add__`
(the operand type check lives in `Accum.merge`): start from the left operand's
matrix (`self.matrix.copy()`) and fold the right operand's rows in with
`addRowInto`. The separate heap model below captures the aliasing this
shallow `copy()` causes. -/
def Confusion.add (a b : Confusion) : Confusion :=
  { matrix := b.matrix.foldl addRowInto a.matrix
    correct := a.correct + b.correct
    incorrect := a.incorrect + b.incorrect }

/-- `Confusion.accuracy`: `correct / (correct + incorrect)` with no handler,
so an empty matrix raises `ZeroDivisionError`. -/
def Confusion.accuracy (m : Confusion) : Except Err PFloat :=
  if m.correct + m.incorrect = 0 then .error .zeroDivision
  else .ok (.fin ((m.correct : ℚ) / ((m.correct : ℚ) + (m.incorrect : ℚ))))

/-- `sum(sum(gf.values()) for gf in self.matrix.values())`. -/
def cellSum (m : Confusion) : ℤ := alSumBy rowSum m.matrix

/-- The count stored in a row at `g`, 0 when absent. -/
def rowGet (r : CRow) (g : String) : ℤ := (alFind r g).getD 0

/-- The count stored at `mat[truth][guess]` in a bare matrix list, 0 when the
row or cell is absent. -/
def cellL (mat : List (String × CRow)) (truth guess : String) : ℤ :=
  match alFind mat truth with
  | some r => rowGet r guess
  | none => 0

/-- The count stored at `matrix[truth][guess]`, 0 when absent. -/
def cellCount (m : Confusion) (truth guess : String) : ℤ :=
  cellL m.matrix truth guess

/-- `Confusion.Kappa`: `Z` is the total cell count; each row contributes
`(rowtotal / Z)²` to `Pe` (raising `ZeroDivisionError` when `Z == 0` and a row
exists); then `(accuracy - Pe) / (1 - Pe)`. -/
def Confusion.Kappa (m : Confusion) : Except Err PFloat := do
  let Z : ℤ := cellSum m
  let Pe ← m.matrix.foldlM
    (fun acc p => do
      let q ← qdiv (rowSum p.2) Z
      pure (acc + q * q))
    (0 : ℚ)
  let a ← m.accuracy
  pfdiv (pfsub a (.fin Pe)) (.fin (1 - Pe))

/-- Representation invariant of the association-list embedding of Python
dicts: no duplicate keys, outer or inner. Every dict reachable in Python
satisfies it. -/
def matWF (mat : List (String × CRow)) : Prop :=
  (alKeys mat).Nodup ∧ ∀ p ∈ mat, (alKeys p.2).Nodup

instance (mat : List (String × CRow)) : Decidable (matWF mat) := by
  unfold matWF
  infer_instance

def Confusion.WF (m : Confusion) : Prop := matWF m.matrix

instance (m : Confusion) : Decidable m.WF := by
  unfold Confusion.WF
  infer_instance

/-- The multi-class matrices reachable from a fresh matrix by `update`
operations with weight 1 and by merges. -/
inductive Built1 : Confusion → Prop
  | fresh : Built1 Confusion.empty
  | upd (m : Confusion) (t g : String) : Built1 m → Built1 (m.update t g 1)
  | merge (m1 m2 : Confusion) :
      Built1 m1 → Built1 m2 → Built1 (m1.add m2)

/-- The matrix obtained by recording every label of `L` as both truth and
guess (weight 1): a perfect-agreement run. -/
def perfectRun (L : List String) : Confusion :=
  L.foldl (fun m l => m.update l l 1) Confusion.empty

/-- The invariant of a perfect-agreement run: no incorrect tally, the correct
tally equals the total cell count, keys are unique, and every row is a single
diagonal cell with a positive count. -/
def diagOK (m : Confusion) : Prop :=
  m.incorrect = 0 ∧ m.correct = cellSum m ∧ (alKeys m.matrix).Nodup ∧
    ∀ p ∈ m.matrix, ∃ c : ℤ, 1 ≤ c ∧ p.2 = [(p.1, c)]

/-! ### `ConfusionMixin.confint`

`confint` first evaluates `p = self.accuracy` (line 54; `p` is never used but
the property call can raise), then returns `(0., 1.)` when `len(self)` is 0,
and otherwise computes the Wilson interval. `sqrt` is irrational, so the
Python `math.sqrt` is passed in as an abstract function `sqrtFn`; no theorem
below depends on its values, because every claim about `confint` concerns the
`len(self) == 0` path, which returns before any square root is taken. -/

/-- The fixed `z = 1.9599639845400538273879` constant, as an exact rational. -/
def zConst : ℚ := 19599639845400538273879 / 10000000000000000000000

/-- The shared mixin body of `confint`, over the `len`/`accuracy` interface. -/
def confintAux (sqrtFn : PFloat → PFloat) (length : ℤ)
    (accuracy : Except Err PFloat) : Except Err (PFloat × PFloat) := do
  let _p ← accuracy
  if length = 0 then
    return (.fin 0, .fin 1)
  let n : PFloat := .fin (length : ℚ)
  let phat ← accuracy
  let z : PFloat := .fin zConst
  let zsq := pfmul z z
  let t1 ← pfdiv zsq n
  let a1 ← pfdiv (.fin 1) (pfadd (.fin 1) t1)
  let t2 ← pfdiv zsq (pfmul (.fin 2) n)
  let a2 := pfadd phat t2
  let t3 ← pfdiv (pfmul phat (pfsub (.fin 1) phat)) n
  let t4 ← pfdiv zsq (pfmul (.fin 4) (pfmul n n))
  let a3 := pfmul z (sqrtFn (pfadd t3 t4))
  return (pfmul a1 (pfsub a2 a3), pfmul a1 (pfadd a2 a3))

/-- `confint` on an `Accuracy` counter. -/
def Accuracy.confint (sqrtFn : PFloat → PFloat) (a : Accuracy) :
    Except Err (PFloat × PFloat) :=
  confintAux sqrtFn a.len a.accuracy

/-- `confint` on a `BinaryConfusion` matrix (`accuracy` never raises there). -/
def BinaryConfusion.confint (sqrtFn : PFloat → PFloat) (m : BinaryConfusion) :
    Except Err (PFloat × PFloat) :=
  confintAux sqrtFn m.len (.ok m.accuracy)

/-- `confint` on a multi-class `Confusion` matrix. -/
def Confusion.confint (sqrtFn : PFloat → PFloat) (m : Confusion) :
    Except Err (PFloat × PFloat) :=
  confintAux sqrtFn m.len m.accuracy

/-! ### The closed family of accumulators and `merge`

Each Python `__add__` starts with `type(right) is not <class>` (raising
`TypeError` for a different operand kind); `BinaryConfusion.__add__`
additionally raises `ValueError` when the `hit` labels differ. The tagged
union `Accum` makes those runtime type checks a pattern match. -/

inductive MergeErr
  | typeMismatch
  | valueMismatch
  deriving DecidableEq

inductive Accum
  | scalar (a : Accuracy)
  | binary (b : BinaryConfusion)
  | multi (m : Confusion)
  deriving DecidableEq

inductive AccumKind
  | scalar
  | binary
  | multi
  deriving DecidableEq

def Accum.kind : Accum → AccumKind
  | .scalar _ => .scalar
  | .binary _ => .binary
  | .multi _ => .multi

/-- `merge` on the closed accumulator family: the operand-kind check of each
`__add__` (`TypeError` on mismatch), the `hit`-label check of
`BinaryConfusion.__add__` (`ValueError` on mismatch), then the element-wise
sum. -/
def Accum.merge : Accum → Accum → Except MergeErr Accum
  | .scalar x, .scalar y => .ok (.scalar (x.add y))
  | .binary x, .binary y =>
    if x.hit = y.hit then .ok (.binary (x.add y)) else .error .valueMismatch
  | .multi x, .multi y => .ok (.multi (x.add y))
  | .scalar _, .binary _ => .error .typeMismatch
  | .scalar _, .multi _ => .error .typeMismatch
  | .binary _, .scalar _ => .error .typeMismatch
  | .binary _, .multi _ => .error .typeMismatch
  | .multi _, .scalar _ => .error .typeMismatch
  | .multi _, .binary _ => .error .typeMismatch

/-- Two accumulators merge without error iff they have the same kind and, for
binary matrices, the same hit label. -/
def Accum.compat : Accum → Accum → Bool
  | .scalar _, .scalar _ => true
  | .binary x, .binary y => x.hit == y.hit
  | .multi _, .multi _ => true
  | _, _ => false

/-- Well-formedness of the dict representation, trivial except for the
multi-class matrix. -/
def Accum.WF : Accum → Prop
  | .multi m => m.WF
  | _ => True

/-- Observable equality of two multi-class matrices: same tallies and the
same count in every cell (the association lists may list rows in different
orders). -/
def Confusion.equiv (x y : Confusion) : Prop :=
  x.correct = y.correct ∧ x.incorrect = y.incorrect ∧
    ∀ t g, cellCount x t g = cellCount y t g

/-- Observable equality of accumulators of the same kind. -/
def Accum.equiv : Accum → Accum → Prop
  | .scalar x, .scalar y => x = y
  | .binary x, .binary y => x = y
  | .multi x, .multi y => x.equiv y
  | _, _ => False

instance : (x : Accum) → Decidable x.WF
  | .scalar _ => .isTrue trivial
  | .binary _ => .isTrue trivial
  | .multi m => inferInstanceAs (Decidable m.WF)

/-- Observable equality of two `merge` outcomes. -/
def exceptEquiv : Except MergeErr Accum → Except MergeErr Accum → Prop
  | .ok x, .ok y => x.equiv y
  | .error e, .error f => e = f
  | .ok _, .error _ => False
  | .error _, .ok _ => False

/-! ### Heap-level model of `Confusion` for the aliasing behavior of `__add__`

`Confusion.__add__` runs `retval.matrix = self.matrix.copy()`: a shallow copy,
so the result's outer dict holds references to the very same inner row dicts
as `self.matrix`, and the subsequent in-place `truth_ptr[guess] += count`
mutates rows that `self` still references. To state that, the object graph is
made explicit: inner rows live in a `CHeap`, and a matrix maps each truth
label to a row id. -/

/-- The store of inner row dicts, addressed by allocation index. -/
structure CHeap where
  rows : List CRow
  deriving DecidableEq

def CHeap.get (h : CHeap) (i : ℕ) : CRow := h.rows.getD i []

def CHeap.set (h : CHeap) (i : ℕ) (r : CRow) : CHeap := ⟨h.rows.set i r⟩

/-- Allocate a fresh empty row (`defaultdict(int)()`), returning its id. -/
def CHeap.alloc (h : CHeap) : CHeap × ℕ := (⟨h.rows ++ [[]]⟩, h.rows.length)

/-- A `Confusion` object whose matrix holds row references. -/
structure ConfRef where
  matrix : List (String × ℕ)
  correct : ℤ
  incorrect : ℤ
  deriving DecidableEq

/-- `self.matrix[truth]` on the reference model: return the existing row id,
or allocate an empty row and record it (defaultdict lazy creation). -/
def getRowRef (h : CHeap) (m : ConfRef) (t : String) :
    CHeap × ConfRef × ℕ :=
  match alFind m.matrix t with
  | some i => (h, m, i)
  | none =>
    let a := h.alloc
    (a.1, { m with matrix := alSet m.matrix t a.2 }, a.2)

/-- `Confusion.update` on the reference model. -/
def updateRef (h : CHeap) (m : ConfRef) (truth guess : String) (k : ℤ) :
    CHeap × ConfRef :=
  let s := getRowRef h m truth
  let h1 := s.1
  let m1 := s.2.1
  let i := s.2.2
  let h2 := h1.set i (rowBump (h1.get i) guess k)
  if truth = guess then (h2, { m1 with correct := m1.correct + 1 })
  else (h2, { m1 with incorrect := m1.incorrect + 1 })

/-- `Confusion.__add__` on the reference model: the result's matrix is a
shallow copy of the left operand's (same row ids), and the loop over the right
operand's rows mutates those shared rows in place through the heap. The right
operand's row is read out before its cells are folded in, which matches the
Python iteration whenever the source and target rows are distinct objects (as
in every scenario stated below). -/
def addRef (h : CHeap) (a b : ConfRef) : CHeap × ConfRef :=
  let init : CHeap × ConfRef :=
    (h, { matrix := a.matrix
          correct := a.correct + b.correct
          incorrect := a.incorrect + b.incorrect })
  b.matrix.foldl
    (fun s p =>
      let bRow := s.1.get p.2
      let r := getRowRef s.1 s.2 p.1
      let h2 := bRow.foldl
        (fun hh q => hh.set r.2.2 (rowBump (hh.get r.2.2) q.1 q.2)) r.1
      (h2, r.2.1))
    init

/-- The count observed at `matrix[truth][guess]` of a reference-model object,
0 when the row or cell is absent. -/
def cellRef (h : CHeap) (m : ConfRef) (truth guess : String) : ℤ :=
  match alFind m.matrix truth with
  | some i => (alFind (h.get i) guess).getD 0
  | none => 0

/-! ## Reduction lemmas for `Except` and association lists -/

theorem exceptBind_ok {ε α β : Type} (a : α) (f : α → Except ε β) :
    (Except.ok a : Except ε α) >>= f = f a := rfl

theorem exceptBind_error {ε α β : Type} (e : ε) (f : α → Except ε β) :
    (Except.error e : Except ε α) >>= f = .error e := rfl

theorem exceptMap_ok {ε α β : Type} (g : α → β) (a : α) :
    (g <$> (Except.ok a : Except ε α)) = .ok (g a) := rfl

theorem exceptMap_error {ε α β : Type} (g : α → β) (e : ε) :
    (g <$> (Except.error e : Except ε α)) = .error e := rfl

theorem exceptPure {ε α : Type} (a : α) :
    (pure a : Except ε α) = .ok a := rfl

theorem foldlM_except_nil {ε α β : Type} (f : β → α → Except ε β) (b : β) :
    List.foldlM f b ([] : List α) = .ok b := rfl

theorem foldlM_except_cons {ε α β : Type} (f : β → α → Except ε β) (b : β)
    (a : α) (l : List α) :
    List.foldlM f b (a :: l) = f b a >>= fun b₁ => List.foldlM f b₁ l := rfl

/-- Division of two Python integers (true division): raises
`ZeroDivisionError` on a zero denominator, otherwise an exact rational. -/

theorem alFind_nil {α β : Type} [DecidableEq α] (k : α) :
    alFind ([] : List (α × β)) k = none := rfl

theorem alFind_cons {α β : Type} [DecidableEq α] (k' : α) (v' : β)
    (rest : List (α × β)) (k : α) :
    alFind ((k', v') :: rest) k = if k' = k then some v' else alFind rest k := rfl

theorem alFind_alSet_self {α β : Type} [DecidableEq α]
    (l : List (α × β)) (k : α) (v : β) : alFind (alSet l k v) k = some v := by
  induction l with
  | nil => simp [alSet, alFind]
  | cons p rest ih =>
    obtain ⟨k', v'⟩ := p
    by_cases h : k' = k <;> simp [alSet, alFind, h, ih]

theorem alFind_alSet_ne {α β : Type} [DecidableEq α]
    (l : List (α × β)) (k k₀ : α) (v : β) (h : k₀ ≠ k) :
    alFind (alSet l k v) k₀ = alFind l k₀ := by
  induction l with
  | nil => simp [alSet, alFind, Ne.symm h]
  | cons p rest ih =>
    obtain ⟨k', v'⟩ := p
    by_cases hk : k' = k
    · subst hk
      simp [alSet, alFind, Ne.symm h]
    · by_cases hk₀ : k' = k₀ <;> simp [alSet, alFind, hk, hk₀, ih, h]

theorem alSumBy_nil {α β : Type} (f : β → ℤ) :
    alSumBy f ([] : List (α × β)) = 0 := rfl

theorem alSumBy_cons {α β : Type} (f : β → ℤ) (p : α × β) (l : List (α × β)) :
    alSumBy f (p :: l) = f p.2 + alSumBy f l := by
  simp [alSumBy]

/-- `alSet` changes a value-sum by the new value minus the replaced one
(zero when the key was absent). This needs no well-formedness hypothesis
because `alSet` touches exactly the first occurrence that `alFind` reads. -/
theorem alSumBy_alSet {α β : Type} [DecidableEq α] (f : β → ℤ)
    (l : List (α × β)) (k : α) (v : β) :
    alSumBy f (alSet l k v) =
      alSumBy f l + f v - ((alFind l k).map f).getD 0 := by
  induction l with
  | nil => simp [alSet, alFind, alSumBy]
  | cons p rest ih =>
    obtain ⟨k', v'⟩ := p
    by_cases h : k' = k
    · simp [alSet, alFind, h, alSumBy_cons]
      ring
    · simp only [alSet, alFind, h, if_false, alSumBy_cons, ih]
      ring

theorem alFind_eq_none_of_not_mem {α β : Type} [DecidableEq α]
    (l : List (α × β)) (k : α) (h : k ∉ alKeys l) : alFind l k = none := by
  induction l with
  | nil => rfl
  | cons p rest ih =>
    obtain ⟨k', v'⟩ := p
    simp only [alKeys, List.map_cons, List.mem_cons] at h
    push_neg at h
    simp [alFind, Ne.symm h.1, ih (by simpa [alKeys] using h.2)]

theorem mem_alKeys_alSet {α β : Type} [DecidableEq α]
    (l : List (α × β)) (k k₀ : α) (v : β) :
    k₀ ∈ alKeys (alSet l k v) ↔ k₀ = k ∨ k₀ ∈ alKeys l := by
  induction l with
  | nil => simp [alSet, alKeys]
  | cons p rest ih =>
    obtain ⟨k', v'⟩ := p
    by_cases h : k' = k
    · subst h
      have hset : alSet ((k', v') :: rest) k' v = (k', v) :: rest := by
        simp [alSet]
      rw [hset]
      simp [alKeys]
    · simp [alSet, alKeys, h] at ih ⊢
      tauto

theorem nodup_alKeys_alSet {α β : Type} [DecidableEq α]
    (l : List (α × β)) (k : α) (v : β) (h : (alKeys l).Nodup) :
    (alKeys (alSet l k v)).Nodup := by
  induction l with
  | nil => simp [alSet, alKeys]
  | cons p rest ih =>
    obtain ⟨k', v'⟩ := p
    simp only [alKeys, List.map_cons, List.nodup_cons] at h
    by_cases hk : k' = k
    · subst hk
      simpa [alSet, alKeys, List.nodup_cons] using h
    · have hstep : alSet ((k', v') :: rest) k v = (k', v') :: alSet rest k v := by
        simp [alSet, hk]
      rw [hstep]
      simp only [alKeys, List.map_cons, List.nodup_cons]
      refine ⟨?_, ih h.2⟩
      intro hmem
      rcases (mem_alKeys_alSet rest k k' v).1 hmem with h1 | h1
      · exact hk h1
      · exact h.1 h1

theorem mem_alSet {α β : Type} [DecidableEq α]
    (l : List (α × β)) (k : α) (v : β) (p : α × β) (h : p ∈ alSet l k v) :
    p ∈ l ∨ p = (k, v) := by
  induction l with
  | nil => simp [alSet] at h; simp [h]
  | cons q rest ih =>
    obtain ⟨k', v'⟩ := q
    by_cases hk : k' = k
    · subst hk
      simp [alSet] at h
      rcases h with h | h
      · right; simp [h]
      · left; simp [h]
    · simp [alSet, hk] at h
      rcases h with h | h
      · left; simp [h]
      · rcases ih h with h1 | h1
        · left; simp [h1]
        · right; exact h1

/-! ## Bookkeeping lemmas about cell sums -/

theorem rowSum_eq_alSumBy (r : CRow) : rowSum r = alSumBy (fun v => v) r := rfl

theorem rowSum_cons (q : String × ℤ) (l : CRow) :
    rowSum (q :: l) = q.2 + rowSum l := by
  simp [rowSum]

theorem rowSum_getD (o : Option CRow) :
    rowSum (o.getD []) = (o.map rowSum).getD 0 := by
  cases o <;> simp [rowSum]

/-- Bumping one cell changes a row's total by exactly the bump, with no
well-formedness assumption (`alSet` targets exactly the occurrence that
`alFind` reads). -/
theorem rowSum_rowBump (r : CRow) (g : String) (k : ℤ) :
    rowSum (rowBump r g k) = rowSum r + k := by
  rw [rowSum_eq_alSumBy, rowBump, alSumBy_alSet]
  cases h : alFind r g <;> simp [rowSum_eq_alSumBy, h] <;> ring

/-- Folding a row's cells into a target row adds the row's total. -/
theorem rowSum_foldl_rowBump (brow : List (String × ℤ)) (cur : CRow) :
    rowSum (brow.foldl (fun r q => rowBump r q.1 q.2) cur) =
      rowSum cur + rowSum brow := by
  induction brow generalizing cur with
  | nil => simp [rowSum]
  | cons q rest ih =>
    rw [List.foldl_cons, ih, rowSum_rowBump, rowSum_cons]
    ring

/-- One merge-loop iteration adds the incoming row's total to the matrix
total. -/
theorem alSumBy_addRowInto (M : List (String × CRow)) (p : String × CRow) :
    alSumBy rowSum (addRowInto M p) = alSumBy rowSum M + rowSum p.2 := by
  rw [addRowInto, alSumBy_alSet, rowSum_foldl_rowBump, rowSum_getD]
  ring

theorem cellSum_update (m : Confusion) (t g : String) (k : ℤ) :
    cellSum (Confusion.update m t g k) = cellSum m + k := by
  have key : ∀ mat : List (String × CRow),
      alSumBy rowSum (alSet mat t (rowBump ((alFind mat t).getD []) g k)) =
        alSumBy rowSum mat + k := by
    intro mat
    rw [alSumBy_alSet, rowSum_rowBump, rowSum_getD]
    ring
  by_cases h : t = g
  · subst h
    simp [Confusion.update, cellSum, key]
  · simp [Confusion.update, cellSum, h, key]

theorem alSumBy_foldl_addRowInto (rows M : List (String × CRow)) :
    alSumBy rowSum (rows.foldl addRowInto M) =
      alSumBy rowSum M + alSumBy rowSum rows := by
  induction rows generalizing M with
  | nil => simp [alSumBy]
  | cons p rest ih =>
    rw [List.foldl_cons, ih, alSumBy_addRowInto, alSumBy_cons]
    ring

theorem cellSum_add (a b : Confusion) :
    cellSum (a.add b) = cellSum a + cellSum b := by
  show alSumBy rowSum (b.matrix.foldl addRowInto a.matrix) =
    alSumBy rowSum a.matrix + alSumBy rowSum b.matrix
  rw [alSumBy_foldl_addRowInto]

/-! ## Cell-level additivity of the merge, and preservation of the dict
representation invariant -/

theorem rowGet_nil (g : String) : rowGet [] g = 0 := rfl

theorem rowGet_rowBump (r : CRow) (g' : String) (c : ℤ) (g : String) :
    rowGet (rowBump r g' c) g = rowGet r g + (if g = g' then c else 0) := by
  by_cases h : g = g'
  · subst h
    simp [rowGet, rowBump, alFind_alSet_self]
  · simp [rowGet, rowBump, alFind_alSet_ne _ _ _ _ h, h]

theorem rowGet_foldl_rowBump (brow : List (String × ℤ)) (cur : CRow)
    (g : String) (hb : (alKeys brow).Nodup) :
    rowGet (brow.foldl (fun r q => rowBump r q.1 q.2) cur) g =
      rowGet cur g + rowGet brow g := by
  induction brow generalizing cur with
  | nil => simp [rowGet, alFind]
  | cons q rest ih =>
    obtain ⟨g', c⟩ := q
    simp only [alKeys, List.map_cons, List.nodup_cons] at hb
    rw [List.foldl_cons, ih _ hb.2, rowGet_rowBump]
    by_cases h : g = g'
    · have hrest : (alFind rest g').getD 0 = 0 := by
        simp [alFind_eq_none_of_not_mem rest _ hb.1]
      simp [rowGet, alFind_cons, h, hrest]
    · simp [rowGet, alFind_cons, h, Ne.symm h]

theorem cellL_nil (t g : String) : cellL [] t g = 0 := rfl

theorem cellL_cons (p : String × CRow) (rest : List (String × CRow))
    (t g : String) :
    cellL (p :: rest) t g =
      if p.1 = t then rowGet p.2 g else cellL rest t g := by
  obtain ⟨k, r⟩ := p
  by_cases h : k = t <;> simp [cellL, alFind_cons, h]

/-- One merge-loop iteration adds the incoming row's cells at its own truth
label and changes nothing elsewhere (the incoming row must be duplicate-free,
as every Python dict is). -/
theorem cellL_addRowInto (M : List (String × CRow)) (p : String × CRow)
    (hp : (alKeys p.2).Nodup) (t g : String) :
    cellL (addRowInto M p) t g =
      cellL M t g + (if t = p.1 then rowGet p.2 g else 0) := by
  by_cases h : t = p.1
  · subst h
    simp only [addRowInto, cellL, alFind_alSet_self]
    rw [rowGet_foldl_rowBump _ _ _ hp]
    cases hf : alFind M p.1 <;> simp [hf, rowGet, alFind]
  · simp only [addRowInto, cellL]
    rw [alFind_alSet_ne _ _ _ _ h]
    simp [h]

theorem cellL_foldl_addRowInto (rows M : List (String × CRow))
    (hk : (alKeys rows).Nodup) (hr : ∀ p ∈ rows, (alKeys p.2).Nodup)
    (t g : String) :
    cellL (rows.foldl addRowInto M) t g = cellL M t g + cellL rows t g := by
  induction rows generalizing M with
  | nil => simp [cellL, alFind]
  | cons p rest ih =>
    simp only [alKeys, List.map_cons, List.nodup_cons] at hk
    rw [List.foldl_cons,
      ih _ hk.2 (fun q hq => hr q (List.mem_cons_of_mem _ hq)),
      cellL_addRowInto _ _ (hr p (List.mem_cons_self _ _)), cellL_cons]
    by_cases h : p.1 = t
    · subst h
      have hrest : cellL rest p.1 g = 0 := by
        simp [cellL, alFind_eq_none_of_not_mem rest _ hk.1]
      simp [hrest]
    · simp [h, Ne.symm h]

/-- Merging adds cell counts pointwise (the right operand must satisfy the
dict representation invariant). -/
theorem cellCount_add (a b : Confusion) (hb : b.WF) (t g : String) :
    cellCount (a.add b) t g = cellCount a t g + cellCount b t g :=
  cellL_foldl_addRowInto b.matrix a.matrix hb.1 hb.2 t g

theorem alFind_mem {α β : Type} [DecidableEq α] (l : List (α × β)) (k : α)
    (v : β) (h : alFind l k = some v) : (k, v) ∈ l := by
  induction l with
  | nil => simp [alFind] at h
  | cons p rest ih =>
    obtain ⟨k', v'⟩ := p
    by_cases hk : k' = k
    · subst hk
      simp [alFind] at h
      simp [h]
    · simp [alFind, hk] at h
      exact List.mem_cons_of_mem _ (ih h)

theorem nodup_foldl_rowBump (brow : List (String × ℤ)) (cur : CRow)
    (h : (alKeys cur).Nodup) :
    (alKeys (brow.foldl (fun r q => rowBump r q.1 q.2) cur)).Nodup := by
  induction brow generalizing cur with
  | nil => exact h
  | cons q rest ih => exact ih _ (nodup_alKeys_alSet _ _ _ h)

theorem matWF_addRowInto (M : List (String × CRow)) (p : String × CRow)
    (h : matWF M) : matWF (addRowInto M p) := by
  refine ⟨nodup_alKeys_alSet _ _ _ h.1, ?_⟩
  intro q hq
  rcases mem_alSet _ _ _ _ hq with hmem | heq
  · exact h.2 q hmem
  · rw [heq]
    refine nodup_foldl_rowBump _ _ ?_
    cases hf : alFind M p.1 with
    | none => simp [alKeys]
    | some r => exact h.2 (p.1, r) (alFind_mem _ _ _ hf)

theorem matWF_foldl_addRowInto (rows M : List (String × CRow))
    (h : matWF M) : matWF (rows.foldl addRowInto M) := by
  induction rows generalizing M with
  | nil => exact h
  | cons p rest ih => exact ih _ (matWF_addRowInto _ _ h)

/-- Merging preserves the dict representation invariant. -/
theorem WF_add (a b : Confusion) (ha : a.WF) : (a.add b).WF :=
  matWF_foldl_addRowInto b.matrix a.matrix ha

/-! ## Perfect-agreement runs and Cohen's Kappa -/

theorem sum_map_div (l : List ℚ) (d : ℚ) :
    (l.map (fun x => x / d)).sum = l.sum / d := by
  induction l with
  | nil => simp
  | cons x rest ih => simp [ih, add_div]

theorem sum_sq_lt_sum (l : List ℚ) (h1 : l ≠ []) (h : ∀ x ∈ l, x ^ 2 < x) :
    (l.map (fun x => x ^ 2)).sum < l.sum := by
  induction l with
  | nil => exact absurd rfl h1
  | cons x rest ih =>
    cases rest with
    | nil => simpa using h x (by simp)
    | cons y t =>
      have hr := ih (by simp) (fun z hz => h z (List.mem_cons_of_mem _ hz))
      have hx := h x (by simp)
      simp only [List.map_cons, List.sum_cons] at hr ⊢
      linarith

/-- Evaluation of the `Pe` accumulation loop in `Confusion.Kappa` when the
total `Z` is nonzero: no division raises and the result is the sum of the
squared row shares. -/
theorem kappa_fold_ok (mat : List (String × CRow)) (Z : ℤ) (hZ : Z ≠ 0)
    (init : ℚ) :
    (mat.foldlM (fun acc p => do
        let q ← qdiv (rowSum p.2) Z
        pure (acc + q * q)) init) =
      .ok (init +
        ((mat.map (fun p => ((rowSum p.2 : ℚ) / (Z : ℚ)) ^ 2)).sum)) := by
  induction mat generalizing init with
  | nil => simp [foldlM_except_nil, exceptPure]
  | cons p rest ih =>
    rw [foldlM_except_cons]
    show (qdiv (rowSum p.2) Z >>= fun q =>
      (pure (init + q * q) : Except Err ℚ)) >>= _ = _
    rw [qdiv, if_neg hZ, exceptBind_ok, exceptPure, exceptBind_ok, ih]
    simp only [List.map_cons, List.sum_cons]
    congr 1
    ring

theorem diagOK_empty : diagOK Confusion.empty :=
  ⟨rfl, rfl, List.nodup_nil, by simp [Confusion.empty]⟩

theorem diagOK_update (m : Confusion) (l : String) (hm : diagOK m) :
    diagOK (m.update l l 1) := by
  obtain ⟨hinc, hcor, hnd, hrows⟩ := hm
  have hrow : ∃ c : ℤ, 1 ≤ c ∧
      rowBump ((alFind m.matrix l).getD []) l 1 = [(l, c)] := by
    cases hf : alFind m.matrix l with
    | none =>
      exact ⟨1, le_refl 1, by simp [rowBump, alSet, alFind]⟩
    | some r =>
      obtain ⟨c, hc, hr⟩ := hrows (l, r) (alFind_mem _ _ _ hf)
      refine ⟨c + 1, by omega, ?_⟩
      simp only at hr
      rw [hr]
      simp [rowBump, alSet, alFind]
  obtain ⟨c, hc, hbump⟩ := hrow
  refine ⟨?_, ?_, ?_, ?_⟩
  · simp [Confusion.update, hinc]
  · rw [cellSum_update]
    simp [Confusion.update]
    omega
  · simp only [Confusion.update, if_pos rfl]
    exact nodup_alKeys_alSet _ _ _ hnd
  · intro p hp
    simp only [Confusion.update, if_pos rfl] at hp
    rcases mem_alSet _ _ _ _ hp with hmem | heq
    · exact hrows p hmem
    · exact ⟨c, hc, by rw [heq, hbump]⟩

theorem diagOK_perfectRun_aux (L : List String) (m : Confusion)
    (hm : diagOK m) :
    diagOK (L.foldl (fun m l => m.update l l 1) m) := by
  induction L generalizing m with
  | nil => exact hm
  | cons l rest ih => exact ih _ (diagOK_update m l hm)

theorem diagOK_perfectRun (L : List String) : diagOK (perfectRun L) :=
  diagOK_perfectRun_aux L Confusion.empty diagOK_empty

theorem mem_keys_update (m : Confusion) (t g k0 : String) (k : ℤ)
    (h : k0 = t ∨ k0 ∈ alKeys m.matrix) :
    k0 ∈ alKeys (m.update t g k).matrix := by
  have : (m.update t g k).matrix =
      alSet m.matrix t (rowBump ((alFind m.matrix t).getD []) g k) := by
    by_cases htg : t = g <;> simp [Confusion.update, htg]
  rw [this, mem_alKeys_alSet]
  exact h

theorem mem_keys_perfectRun_aux (L : List String) (m : Confusion) (a : String)
    (h : a ∈ L ∨ a ∈ alKeys m.matrix) :
    a ∈ alKeys ((L.foldl (fun m l => m.update l l 1) m).matrix) := by
  induction L generalizing m with
  | nil =>
    rcases h with h | h
    · simp at h
    · exact h
  | cons l rest ih =>
    rw [List.foldl_cons]
    refine ih _ ?_
    rcases h with h | h
    · rcases List.mem_cons.1 h with h | h
      · exact Or.inr (mem_keys_update m l l a 1 (Or.inl h))
      · exact Or.inl h
    · exact Or.inr (mem_keys_update m l l a 1 (Or.inr h))

theorem mem_keys_perfectRun (L : List String) (a : String) (h : a ∈ L) :
    a ∈ alKeys ((perfectRun L).matrix) :=
  mem_keys_perfectRun_aux L Confusion.empty a (Or.inl h)

theorem mem_alKeys_exists {α β : Type} (l : List (α × β)) (k : α)
    (h : k ∈ alKeys l) : ∃ v, (k, v) ∈ l := by
  induction l with
  | nil => simp [alKeys] at h
  | cons p rest ih =>
    simp only [alKeys, List.map_cons, List.mem_cons] at h
    rcases h with h | h
    · exact ⟨p.2, by rw [h]; exact List.mem_cons_self _ _⟩
    · obtain ⟨v, hv⟩ := ih (by simpa [alKeys] using h)
      exact ⟨v, List.mem_cons_of_mem _ hv⟩

/-- In a matrix whose rows all have totals of at least 1 and which has two
distinct rows, every row's total is strictly below the grand total. -/
theorem row_lt_total (mat : List (String × CRow))
    (hall : ∀ p ∈ mat, 1 ≤ rowSum p.2) (hnd : (alKeys mat).Nodup)
    (p q : String × CRow) (hp : p ∈ mat) (hq : q ∈ mat) (hne : p.1 ≠ q.1) :
    rowSum p.2 < alSumBy rowSum mat := by
  obtain ⟨s, t, rfl⟩ := List.append_of_mem hp
  have hq2 : q ∈ s ++ t := by
    rcases List.mem_append.1 hq with h | h
    · exact List.mem_append.2 (Or.inl h)
    · rcases List.mem_cons.1 h with h | h
      · exact absurd (congrArg Prod.fst h.symm) hne
      · exact List.mem_append.2 (Or.inr h)
  have hsum : alSumBy rowSum (s ++ p :: t) =
      rowSum p.2 + alSumBy rowSum (s ++ t) := by
    simp only [alSumBy, List.map_append, List.map_cons, List.sum_append,
      List.sum_cons]
    ring
  have hq1 : 1 ≤ rowSum q.2 := hall q hq
  have hpos : rowSum q.2 ≤ alSumBy rowSum (s ++ t) := by
    have hnn : ∀ x ∈ (s ++ t).map (fun r => rowSum r.2), 0 ≤ x := by
      intro x hx
      obtain ⟨r, hr, rfl⟩ := List.mem_map.1 hx
      have : r ∈ s ++ p :: t := by
        rcases List.mem_append.1 hr with h | h
        · exact List.mem_append.2 (Or.inl h)
        · exact List.mem_append.2 (Or.inr (List.mem_cons_of_mem _ h))
      linarith [hall r this]
    exact List.single_le_sum hnn _ (List.mem_map.2 ⟨q, hq2, rfl⟩)
  rw [hsum]
  omega

theorem cast_sum_rows (mat : List (String × CRow)) :
    ((mat.map (fun p => ((rowSum p.2 : ℤ) : ℚ))).sum) =
      ((alSumBy rowSum mat : ℤ) : ℚ) := by
  induction mat with
  | nil => simp [alSumBy]
  | cons p rest ih =>
    simp only [List.map_cons, List.sum_cons, alSumBy_cons, ih]
    push_cast
    ring

/-- The final step of both `Kappa` methods: `(1 - Pe) / (1 - Pe)` in Python
float arithmetic is exactly `1.0` whenever `1 - Pe` is nonzero. -/
theorem pfdiv_one_sub_self (Pe : ℚ) (h : 1 - Pe ≠ 0) :
    pfdiv (pfsub (.fin 1) (.fin Pe)) (.fin (1 - Pe)) = .ok (.fin 1) := by
  have hfin : pfsub (.fin 1) (.fin Pe) = .fin (1 - Pe) := by
    simp only [pfsub, PFloat.neg, pfadd, PFloat.fin.injEq]
    ring
  rw [hfin]
  simp only [pfdiv, if_neg h]
  rw [div_self h]

theorem one_sub_pe_ne (x : ℚ) (h0 : 0 < x) (h1 : x < 1) :
    1 - (x * x + (1 - x) * (1 - x)) ≠ 0 := by nlinarith

/-- Perfect agreement over at least two distinct labels gives multi-class
Kappa exactly 1. -/
theorem kappa_perfect_multi (L : List String) (a b : String)
    (ha : a ∈ L) (hb : b ∈ L) (hab : a ≠ b) :
    (perfectRun L).Kappa = .ok (.fin 1) := by
  obtain ⟨hinc, hcor, hnd, hrows⟩ := diagOK_perfectRun L
  obtain ⟨ra, hpa⟩ := mem_alKeys_exists _ _ (mem_keys_perfectRun L a ha)
  obtain ⟨rb, hpb⟩ := mem_alKeys_exists _ _ (mem_keys_perfectRun L b hb)
  have hall : ∀ p ∈ (perfectRun L).matrix, 1 ≤ rowSum p.2 := by
    intro p hp
    obtain ⟨c, hc, hr⟩ := hrows p hp
    rw [hr]
    simpa [rowSum] using hc
  have hlt : ∀ p ∈ (perfectRun L).matrix,
      rowSum p.2 < cellSum (perfectRun L) := by
    intro p hp
    by_cases hp1 : p.1 = a
    · refine row_lt_total _ hall hnd p (b, rb) hp hpb ?_
      rw [hp1]
      exact hab
    · exact row_lt_total _ hall hnd p (a, ra) hp hpa hp1
  have h1a : 1 ≤ rowSum ra := hall (a, ra) hpa
  have h2a : rowSum ra < cellSum (perfectRun L) := hlt (a, ra) hpa
  have hZ0 : cellSum (perfectRun L) ≠ 0 := by omega
  have hZqpos : (0 : ℚ) < (cellSum (perfectRun L) : ℚ) := by
    exact_mod_cast by omega
  have hacc : (perfectRun L).accuracy = .ok (.fin 1) := by
    rw [Confusion.accuracy,
      if_neg (by omega :
        ¬((perfectRun L).correct + (perfectRun L).incorrect = 0))]
    rw [hinc, hcor]
    push_cast
    rw [add_zero, div_self (by exact_mod_cast hZ0)]
  have hsum1 : ((perfectRun L).matrix.map
      (fun p => ((rowSum p.2 : ℤ) : ℚ) / (cellSum (perfectRun L) : ℚ))).sum
      = 1 := by
    rw [show (fun p : String × CRow =>
          ((rowSum p.2 : ℤ) : ℚ) / (cellSum (perfectRun L) : ℚ)) =
        (fun x : ℚ => x / (cellSum (perfectRun L) : ℚ)) ∘
          (fun p => ((rowSum p.2 : ℤ) : ℚ)) from rfl,
      ← List.map_map, sum_map_div, cast_sum_rows]
    exact div_self (ne_of_gt hZqpos)
  have hstrict : ∀ x ∈ (perfectRun L).matrix.map
      (fun p => ((rowSum p.2 : ℤ) : ℚ) / (cellSum (perfectRun L) : ℚ)),
      x ^ 2 < x := by
    intro x hx
    obtain ⟨p, hp, rfl⟩ := List.mem_map.1 hx
    have h1 : (0 : ℚ) < ((rowSum p.2 : ℤ) : ℚ) := by
      exact_mod_cast lt_of_lt_of_le Int.zero_lt_one (hall p hp)
    have h2 : ((rowSum p.2 : ℤ) : ℚ) < (cellSum (perfectRun L) : ℚ) := by
      exact_mod_cast hlt p hp
    have hq0 : 0 < ((rowSum p.2 : ℤ) : ℚ) / (cellSum (perfectRun L) : ℚ) :=
      div_pos h1 hZqpos
    have hq1 : ((rowSum p.2 : ℤ) : ℚ) / (cellSum (perfectRun L) : ℚ) < 1 :=
      (div_lt_one hZqpos).2 h2
    nlinarith
  have hne : (perfectRun L).matrix ≠ [] := by
    intro hE
    rw [hE] at hpa
    exact absurd hpa (List.not_mem_nil _)
  have hPe : ((perfectRun L).matrix.map
      (fun p => (((rowSum p.2 : ℤ) : ℚ) /
        (cellSum (perfectRun L) : ℚ)) ^ 2)).sum < 1 := by
    have hmm := sum_sq_lt_sum _ (by simpa using hne) hstrict
    rw [List.map_map] at hmm
    calc ((perfectRun L).matrix.map
          (fun p => (((rowSum p.2 : ℤ) : ℚ) /
            (cellSum (perfectRun L) : ℚ)) ^ 2)).sum
        < ((perfectRun L).matrix.map
            (fun p => ((rowSum p.2 : ℤ) : ℚ) /
              (cellSum (perfectRun L) : ℚ))).sum := hmm
      _ = 1 := hsum1
  rw [Confusion.Kappa]
  rw [kappa_fold_ok _ _ hZ0 0]
  rw [exceptBind_ok, hacc, exceptBind_ok]
  set S := ((perfectRun L).matrix.map
    (fun p => (((rowSum p.2 : ℤ) : ℚ) /
      (cellSum (perfectRun L) : ℚ)) ^ 2)).sum with hS
  have hden : (1 : ℚ) - (0 + S) ≠ 0 := by
    have h1 : S < 1 := hPe
    intro hE
    rw [sub_eq_zero] at hE
    linarith
  exact pfdiv_one_sub_self _ hden

/-- Perfect agreement with both diagonal cells occupied gives binary Kappa
exactly 1. -/
theorem kappa_perfect_binary (B : BinaryConfusion)
    (hfp : B.fp = 0) (hfn : B.fn = 0) (htp : 0 < B.tp) (htn : 0 < B.tn) :
    B.Kappa = .ok (.fin 1) := by
  obtain ⟨hit, tp, fp, fn, tn⟩ := B
  simp only at hfp hfn htp htn
  subst hfp
  subst hfn
  have hlen : (⟨hit, tp, 0, 0, tn⟩ : BinaryConfusion).len ≠ 0 := by
    simp only [BinaryConfusion.len]
    omega
  have haccB : BinaryConfusion.accuracy ⟨hit, tp, 0, 0, tn⟩ = .fin 1 := by
    rw [BinaryConfusion.accuracy, if_neg hlen]
    simp only [BinaryConfusion.len, PFloat.fin.injEq]
    push_cast
    rw [show (tp : ℚ) + 0 + 0 + (tn : ℚ) = (tp : ℚ) + (tn : ℚ) by ring]
    exact div_self (by exact_mod_cast (by omega : tp + tn ≠ 0))
  rw [BinaryConfusion.Kappa, if_neg hlen, haccB]
  refine pfdiv_one_sub_self _ (one_sub_pe_ne _ ?_ ?_)
  · refine div_pos ?_ ?_
    · have h1 : (0 : ℚ) < (tp : ℚ) := by exact_mod_cast htp
      push_cast
      linarith
    · simp only [BinaryConfusion.len]
      exact_mod_cast (by omega : (0 : ℤ) < tp + 0 + 0 + tn)
  · simp only [BinaryConfusion.len]
    rw [div_lt_one (by exact_mod_cast (by omega : (0 : ℤ) < tp + 0 + 0 + tn))]
    have h1 : (0 : ℚ) < (tn : ℚ) := by exact_mod_cast htn
    push_cast
    linarith

/-! ## Claim theorems -/

/-- C1: `confidenceInterval()` on an accumulator with `length() == 0` is
claimed to return `(0, 1)` without failing. The code evaluates
`p = self.accuracy` (a dead assignment) before the length guard, so the
scalar counter and the multi-class matrix raise `ZeroDivisionError` instead;
only the binary matrix, whose `accuracy` returns NaN instead of raising,
reaches the guard and returns `(0, 1)`. This theorem evaluates `confint` on
the three empty accumulators (for any square-root function, which the
`length() == 0` path never consults). -/
theorem confint_empty_divergence (sqrtFn : PFloat → PFloat) :
    Accuracy.confint sqrtFn ⟨0, 0⟩ = .error .zeroDivision ∧
    Confusion.confint sqrtFn Confusion.empty = .error .zeroDivision ∧
    BinaryConfusion.confint sqrtFn ⟨true, 0, 0, 0, 0⟩ = .ok (.fin 0, .fin 1) :=
  ⟨rfl, rfl, rfl⟩

/-- C2: `fScore(ratio)` does raise an `AssertionError` for `ratio ≤ 0` and
passes its validation for `ratio > 0`, but `sScore` raises `NameError` on
every call — its `assert ratio > 0.` names an undefined variable (the
parameter is `ns_ratio`) — so `sScore` neither raises the claimed
`InvalidArgument` for `ratio ≤ 0` nor passes validation for `ratio > 0`.
Evaluations on the matrix `tp=fp=fn=tn=1`, whose precision and recall are
defined. -/
theorem sscore_fscore_ratio_divergence :
    BinaryConfusion.Sscore ⟨true, 1, 1, 1, 1⟩ 1 = .error .nameError ∧
    BinaryConfusion.Sscore ⟨true, 1, 1, 1, 1⟩ (-1) = .error .nameError ∧
    BinaryConfusion.Fscore ⟨true, 1, 1, 1, 1⟩ 0 = .error .assertionError ∧
    BinaryConfusion.Fscore ⟨true, 1, 1, 1, 1⟩ (-1) = .error .assertionError ∧
    BinaryConfusion.Fscore ⟨true, 1, 1, 1, 1⟩ 1 = .ok (.fin (1 / 2)) := by
  refine ⟨rfl, rfl, by decide, by decide, ?_⟩
  norm_num [BinaryConfusion.Fscore, BinaryConfusion.precision,
    BinaryConfusion.recall, pfmul, pfadd, pfdiv]

/-- C3: merging is claimed to return a fresh instance that does not alias the
operands' storage and to leave both operands unchanged. `Confusion.__add__`
copies the outer dict shallowly, so the result shares the left operand's
inner row dicts, and the in-place `+=` loop mutates them: after building
`a` and `b` each by one `update("A", "A")` and evaluating `a + b`, the cell
`a.matrix["A"]["A"]` has changed from 1 to 2 (the result and the mutated `a`
now agree; `b` is untouched). -/
theorem confusion_add_mutates_left_operand :
    (let h0 : CHeap := ⟨[]⟩
     let s1 := updateRef h0 ⟨[], 0, 0⟩ "A" "A" 1
     let s2 := updateRef s1.1 ⟨[], 0, 0⟩ "A" "A" 1
     let s3 := addRef s2.1 s1.2 s2.2
     cellRef s2.1 s1.2 "A" "A" = 1 ∧
     cellRef s3.1 s1.2 "A" "A" = 2 ∧
     cellRef s3.1 s3.2 "A" "A" = 2 ∧
     cellRef s3.1 s2.2 "A" "A" = 1) := by decide

/-- C4 counterexample: a single `update("A", "A", 2)` from a fresh matrix
bumps the cell by the weight 2 but the `correct` tally only by 1, so
`correct + incorrect` differs from the sum of all cell counts. -/
theorem weighted_update_invariant_counterexample :
    ¬ ((Confusion.update Confusion.empty "A" "A" 2).correct +
        (Confusion.update Confusion.empty "A" "A" 2).incorrect =
        cellSum (Confusion.update Confusion.empty "A" "A" 2)) := by decide

/-- C4 amended: the invariant `correct + incorrect = sum of all cell counts`
holds for every multi-class matrix built from a fresh matrix by `update`
operations with weight 1 and by merges (the weight-`k` update adds `k` to the
cell but only 1 to the tally, so unit weights are required). -/
theorem built1_tally_eq_cellSum (m : Confusion) (h : Built1 m) :
    m.correct + m.incorrect = cellSum m := by
  induction h with
  | fresh => rfl
  | upd m t g _ ih =>
    rw [cellSum_update]
    by_cases htg : t = g <;> simp [Confusion.update, htg] <;> omega
  | merge m1 m2 _ _ ih1 ih2 =>
    rw [cellSum_add]
    simp [Confusion.add]
    omega

/-- Witness for C4's amended claim on a two-update weight-1 run. -/
theorem built1_tally_eq_cellSum_witness :
    (Confusion.update (Confusion.update Confusion.empty "A" "A" 1) "A" "B" 1).correct +
      (Confusion.update (Confusion.update Confusion.empty "A" "A" 1) "A" "B" 1).incorrect =
      cellSum (Confusion.update (Confusion.update Confusion.empty "A" "A" 1) "A" "B" 1) :=
  built1_tally_eq_cellSum _ (.upd _ _ _ (.upd _ _ _ .fresh))

/-- C5: with no observations, `Accuracy.accuracy` and `Confusion.accuracy`
raise `ZeroDivisionError`, while `BinaryConfusion.accuracy` catches the
division and returns NaN (its total return type shows it cannot fail). -/
theorem empty_accuracy_policies :
    (∀ a : Accuracy, a.len = 0 → a.accuracy = .error .zeroDivision) ∧
    (∀ m : Confusion, m.len = 0 → m.accuracy = .error .zeroDivision) ∧
    (∀ b : BinaryConfusion, b.len = 0 → b.accuracy = .nan) := by
  refine ⟨?_, ?_, ?_⟩
  · intro a h
    simp [Accuracy.accuracy, h]
  · intro m h
    simp only [Confusion.len] at h
    simp [Confusion.accuracy, h]
  · intro b h
    simp [BinaryConfusion.accuracy, h]

/-- Witness for C5 at the three empty accumulators. -/
theorem empty_accuracy_policies_witness :
    ((⟨0, 0⟩ : Accuracy).len = 0 ∧
      (⟨0, 0⟩ : Accuracy).accuracy = .error .zeroDivision) ∧
    (Confusion.empty.len = 0 ∧
      Confusion.empty.accuracy = .error .zeroDivision) ∧
    ((⟨true, 0, 0, 0, 0⟩ : BinaryConfusion).len = 0 ∧
      (⟨true, 0, 0, 0, 0⟩ : BinaryConfusion).accuracy = .nan) :=
  ⟨⟨rfl, empty_accuracy_policies.1 _ rfl⟩,
   ⟨rfl, empty_accuracy_policies.2.1 _ rfl⟩,
   ⟨rfl, empty_accuracy_policies.2.2 _ rfl⟩⟩

/-- C6: merging operands of different kinds raises `TypeError`; merging two
binary matrices with different hit labels raises `ValueError`; merging
same-kind compatible operands succeeds. -/
theorem merge_error_conditions (x y : Accum) :
    (x.kind ≠ y.kind → x.merge y = .error .typeMismatch) ∧
    (∀ bx b2, x = .binary bx → y = .binary b2 → bx.hit ≠ b2.hit →
      x.merge y = .error .valueMismatch) ∧
    (x.compat y = true → ∃ r, x.merge y = .ok r) := by
  refine ⟨?_, ?_, ?_⟩
  · intro h
    cases x <;> cases y <;> first | exact absurd rfl h | rfl
  · intro bx b2 hx hy hne
    subst hx
    subst hy
    simp [Accum.merge, hne]
  · intro h
    cases x <;> cases y <;> simp [Accum.compat] at h
    · exact ⟨_, rfl⟩
    · next a b => exact ⟨.binary (a.add b), by simp [Accum.merge, h]⟩
    · exact ⟨_, rfl⟩

/-- Witness for C6: a kind mismatch, a hit-label mismatch, and a compatible
merge. -/
theorem merge_error_conditions_witness :
    (Accum.scalar ⟨0, 0⟩).merge (.binary ⟨true, 0, 0, 0, 0⟩) =
      .error .typeMismatch ∧
    (Accum.binary ⟨true, 0, 0, 0, 0⟩).merge (.binary ⟨false, 0, 0, 0, 0⟩) =
      .error .valueMismatch ∧
    ∃ r, (Accum.scalar ⟨1, 2⟩).merge (.scalar ⟨3, 4⟩) = .ok r :=
  ⟨(merge_error_conditions _ _).1 (by decide),
   (merge_error_conditions _ _).2.1 _ _ rfl rfl (by decide),
   (merge_error_conditions _ _).2.2 (by decide)⟩

/-- C7: `BinaryConfusion.update` coerces both arguments to booleans and bumps
exactly the cell selected by the truth table, leaving the other three cells
and the hit label unchanged. -/
theorem binary_update_truth_table (m : BinaryConfusion) (truth guess : PyVal) :
    (m.update truth guess).hit = m.hit ∧
    (m.update truth guess).tp =
      m.tp + (if truth.toBool && guess.toBool then 1 else 0) ∧
    (m.update truth guess).fn =
      m.fn + (if truth.toBool && !guess.toBool then 1 else 0) ∧
    (m.update truth guess).fp =
      m.fp + (if !truth.toBool && guess.toBool then 1 else 0) ∧
    (m.update truth guess).tn =
      m.tn + (if !truth.toBool && !guess.toBool then 1 else 0) := by
  cases ht : truth.toBool <;> cases hg : guess.toBool <;>
    simp [BinaryConfusion.update, ht, hg]

/-- C8: for same-kind, compatible, well-represented accumulators, `merge` is
commutative and associative on the observable counts: the results of
`merge(a,b)` and `merge(b,a)` agree cell by cell, and so do
`merge(merge(a,b),c)` and `merge(a,merge(b,c))`. -/
theorem merge_comm_assoc (x y z : Accum) (hx : x.WF) (hy : y.WF) (hz : z.WF)
    (hxy : x.compat y = true) (hxz : x.compat z = true) :
    exceptEquiv (x.merge y) (y.merge x) ∧
    exceptEquiv ((x.merge y).bind fun m => m.merge z)
      ((y.merge z).bind fun m => x.merge m) := by
  cases x <;> cases y <;> cases z <;> simp [Accum.compat] at hxy hxz
  case scalar.scalar.scalar a b c =>
    refine ⟨?_, ?_⟩ <;>
      simp [Accum.merge, Except.bind, exceptEquiv, Accum.equiv, Accuracy.add,
        Accuracy.mk.injEq] <;>
      constructor <;> ring
  case binary.binary.binary bx b2 bz =>
    have e3 : b2.hit = bz.hit := hxy.symm.trans hxz
    refine ⟨?_, ?_⟩ <;>
      simp [Accum.merge, Except.bind, exceptEquiv, Accum.equiv,
        BinaryConfusion.add, BinaryConfusion.mk.injEq, hxy, hxz, e3] <;>
      refine ⟨?_, ?_, ?_, ?_⟩ <;> ring
  case multi.multi.multi ma mb mc =>
    have wa : ma.WF := hx
    have wb : mb.WF := hy
    have wc : mc.WF := hz
    refine ⟨?_, ?_⟩
    · show Confusion.equiv (ma.add mb) (mb.add ma)
      refine ⟨by simp [Confusion.add]; ring, by simp [Confusion.add]; ring, ?_⟩
      intro t g
      rw [cellCount_add ma mb wb t g, cellCount_add mb ma wa t g]
      ring
    · show Confusion.equiv ((ma.add mb).add mc) (ma.add (mb.add mc))
      refine ⟨by simp [Confusion.add]; ring, by simp [Confusion.add]; ring, ?_⟩
      intro t g
      rw [cellCount_add (ma.add mb) mc wc t g, cellCount_add ma mb wb t g,
        cellCount_add ma (mb.add mc) (WF_add mb mc wb) t g,
        cellCount_add mb mc wc t g]
      ring

/-- Witness for C8 on three concrete multi-class matrices. -/
theorem merge_comm_assoc_witness :
    ((Accum.multi ⟨[("A", [("A", 1), ("B", 2)])], 1, 2⟩).compat
        (.multi ⟨[("A", [("A", 3)]), ("C", [("B", 1)])], 3, 1⟩) = true) ∧
    exceptEquiv
      ((Accum.multi ⟨[("A", [("A", 1), ("B", 2)])], 1, 2⟩).merge
        (.multi ⟨[("A", [("A", 3)]), ("C", [("B", 1)])], 3, 1⟩))
      ((Accum.multi ⟨[("A", [("A", 3)]), ("C", [("B", 1)])], 3, 1⟩).merge
        (.multi ⟨[("A", [("A", 1), ("B", 2)])], 1, 2⟩)) ∧
    exceptEquiv
      (((Accum.multi ⟨[("A", [("A", 1), ("B", 2)])], 1, 2⟩).merge
          (.multi ⟨[("A", [("A", 3)]), ("C", [("B", 1)])], 3, 1⟩)).bind
        fun m => m.merge (.multi ⟨[("B", [("A", 5)])], 0, 5⟩))
      (((Accum.multi ⟨[("A", [("A", 3)]), ("C", [("B", 1)])], 3, 1⟩).merge
          (.multi ⟨[("B", [("A", 5)])], 0, 5⟩)).bind
        fun m => (Accum.multi ⟨[("A", [("A", 1), ("B", 2)])], 1, 2⟩).merge m) :=
  ⟨rfl,
   (merge_comm_assoc
      (.multi ⟨[("A", [("A", 1), ("B", 2)])], 1, 2⟩)
      (.multi ⟨[("A", [("A", 3)]), ("C", [("B", 1)])], 3, 1⟩)
      (.multi ⟨[("B", [("A", 5)])], 0, 5⟩)
      (by decide) (by decide) (by decide) rfl rfl).1,
   (merge_comm_assoc
      (.multi ⟨[("A", [("A", 1), ("B", 2)])], 1, 2⟩)
      (.multi ⟨[("A", [("A", 3)]), ("C", [("B", 1)])], 3, 1⟩)
      (.multi ⟨[("B", [("A", 5)])], 0, 5⟩)
      (by decide) (by decide) (by decide) rfl rfl).2⟩

/-- C9 counterexample: a non-empty perfect-agreement run over a single label
has chance agreement `Pe = 1`, so `Kappa` computes `0.0 / 0.0` and raises
`ZeroDivisionError` instead of returning 1.0 — for the multi-class matrix
after `update("A","A")` and for the binary matrix `tp=2` (all other cells
0). -/
theorem kappa_perfect_single_label_counterexample :
    (perfectRun ["A"]).Kappa = .error .zeroDivision ∧
    (perfectRun ["A"]).Kappa ≠ .ok (.fin 1) ∧
    BinaryConfusion.Kappa ⟨true, 2, 0, 0, 0⟩ = .error .zeroDivision := by
  have h1 : (perfectRun ["A"]).Kappa = .error .zeroDivision := by
    norm_num [perfectRun, Confusion.Kappa, Confusion.update, Confusion.empty,
      Confusion.accuracy, cellSum, alSumBy, rowSum, rowBump, alSet, alFind,
      qdiv, pfsub, PFloat.neg, pfadd, pfdiv, exceptBind_ok, exceptBind_error,
      exceptMap_ok, exceptMap_error, exceptPure, foldlM_except_nil,
      foldlM_except_cons]
  have h3 : BinaryConfusion.Kappa ⟨true, 2, 0, 0, 0⟩ =
      .error .zeroDivision := by
    norm_num [BinaryConfusion.Kappa, BinaryConfusion.accuracy,
      BinaryConfusion.len, pfsub, PFloat.neg, pfadd, pfdiv]
  refine ⟨h1, ?_, h3⟩
  rw [h1]
  intro h
  exact Except.noConfusion h

/-- C9 amended: for every non-empty perfect-agreement run in which at least
two distinct labels are observed, the multi-class `Kappa` is exactly 1.0, and
the binary `Kappa` is exactly 1.0 whenever both diagonal cells (`tp` and
`tn`) are occupied and `fp = fn = 0`. (With a single observed label the
chance-agreement term is 1 and `Kappa` raises `ZeroDivisionError`.) -/
theorem kappa_perfect_agreement (L : List String) (a b : String)
    (ha : a ∈ L) (hb : b ∈ L) (hab : a ≠ b) (B : BinaryConfusion)
    (hfp : B.fp = 0) (hfn : B.fn = 0) (htp : 0 < B.tp) (htn : 0 < B.tn) :
    (perfectRun L).Kappa = .ok (.fin 1) ∧ B.Kappa = .ok (.fin 1) :=
  ⟨kappa_perfect_multi L a b ha hb hab,
   kappa_perfect_binary B hfp hfn htp htn⟩

/-- Witness for C9's amended claim: the two-label run `["A", "B"]` and the
binary matrix `tp = tn = 1`. -/
theorem kappa_perfect_agreement_witness :
    (("A" : String) ∈ ["A", "B"] ∧ ("B" : String) ∈ ["A", "B"] ∧
      ("A" : String) ≠ "B") ∧
    (perfectRun ["A", "B"]).Kappa = .ok (.fin 1) ∧
    BinaryConfusion.Kappa ⟨true, 1, 0, 0, 1⟩ = .ok (.fin 1) :=
  ⟨⟨by decide, by decide, by decide⟩,
   (kappa_perfect_agreement ["A", "B"] "A" "B" (by decide) (by decide)
      (by decide) ⟨true, 1, 0, 0, 1⟩ rfl rfl (by decide) (by decide)).1,
   (kappa_perfect_agreement ["A", "B"] "A" "B" (by decide) (by decide)
      (by decide) ⟨true, 1, 0, 0, 1⟩ rfl rfl (by decide) (by decide)).2⟩

/-- C10: on the non-empty matrix `tp=0, fp=1, fn=1, tn=0`, precision and
recall are both `0.0`, so the F-score denominator `ratio²·P + R` is `0.0` and
`Fscore(1)` raises an uncaught `ZeroDivisionError` despite the valid ratio. -/
theorem fscore_zero_tp_zero_division :
    (0 : ℤ) < (⟨true, 0, 1, 1, 0⟩ : BinaryConfusion).len ∧
    (⟨true, 0, 1, 1, 0⟩ : BinaryConfusion).precision = .fin 0 ∧
    (⟨true, 0, 1, 1, 0⟩ : BinaryConfusion).recall = .fin 0 ∧
    (⟨true, 0, 1, 1, 0⟩ : BinaryConfusion).Fscore 1 = .error .zeroDivision := by
  refine ⟨by decide, ?_, ?_, ?_⟩ <;>
    norm_num [BinaryConfusion.Fscore, BinaryConfusion.precision,
      BinaryConfusion.recall, pfmul, pfadd, pfdiv]

end Nlup
